import Mathlib

/-!
Verification development for the crunchy-cli download core
(`crunchy-cli-core/src/utils/download.rs` and `.../utils/format.rs`).

The Rust code is shallowly embedded: byte buffers are lists of naturals,
`u64`/`i64` arithmetic is `Nat`/`Int` arithmetic with explicit reduction
modulo `2 ^ 64` where Rust release-mode wrapping matters, fallible code
returns `Option`, and `f32` second counts (skip events) are idealised as
exact rationals.  Rust's `sort_by` is a stable sort; every stable sort
agrees with insertion sort on any total preorder comparator, so
`List.insertionSort` is used as its executable embedding.
-/

namespace Crunchy

/-- Bytes of a segment body. -/
abbrev Bytes := List Nat

/-! ## Segment fetcher (`download_segments`, download.rs:1008-1184)

Workers receive disjoint round-robin index sets
(`segs[i - ((i / cpus) * cpus)].push(segment)`), fetch them sequentially and
send `(num + i * cpus, bytes)` over one unbounded channel; a single writer
tracks `data_pos`, writes a message directly when its index matches and
otherwise parks it in a `BTreeMap` buffer, flushing the buffer whenever it
holds the next index.  The `-1` error sentinel only occurs on a failed
worker, so messages of the successful runs quantified over here all carry
natural indices. -/

/-- Indices of the segments pushed into worker `w`'s bucket: exactly the
`i < N` with `i % cpus = w`, in increasing order. -/
def workerBucket (N cpus w : Nat) : List Nat :=
  (List.range N).filter (fun i => i % cpus = w)

/-- Closed form for the size of a worker's bucket. -/
def bucketLen (N cpus w : Nat) : Nat := (N - w + cpus - 1) / cpus

/-- All segment indices, grouped worker-major. -/
def allKeys (N cpus : Nat) : List Nat :=
  ((List.range cpus).map (fun w => workerBucket N cpus w)).flatten

/-- Messages sent by worker `w` on a fully successful run: its `j`-th
segment is sent with key `w + j * cpus`, mirroring `num + (i * cpus)` in the
worker loop. -/
def workerSend (body : Nat → Bytes) (cpus w : Nat) : Nat → List Nat → List (Nat × Bytes)
  | _, [] => []
  | j, seg :: rest => (w + j * cpus, body seg) :: workerSend body cpus w (j + 1) rest

/-- All messages of a successful run, worker-major, with
`cpus = min K N` exactly as `self.download_threads.min(segments.len())`.
A real execution delivers some interleaving of the workers' streams; the
ordering theorem quantifies over every permutation of this list. -/
def allMessages (body : Nat → Bytes) (N K : Nat) : List (Nat × Bytes) :=
  ((List.range (min K N)).map
    (fun w => workerSend body (min K N) w 0 (workerBucket N (min K N) w))).flatten

/-- Lookup in the writer's reorder buffer (`BTreeMap::remove` probe). -/
def bufLookup : List (Nat × Bytes) → Nat → Option Bytes
  | [], _ => none
  | p :: rest, k => if p.1 = k then some p.2 else bufLookup rest k

/-- Removal of a key from the reorder buffer. -/
def bufErase : List (Nat × Bytes) → Nat → List (Nat × Bytes)
  | [], _ => []
  | p :: rest, k => if p.1 = k then rest else p :: bufErase rest k

/-- Keys held in the reorder buffer. -/
def bufKeys (buf : List (Nat × Bytes)) : List Nat := buf.map Prod.fst

/-- State of the writer loop: `data_pos`, the reorder buffer, and the chunks
written to the sink so far (each chunk is one whole segment body, in write
order). -/
structure WriterState where
  dataPos : Nat
  buf : List (Nat × Bytes)
  chunks : List Bytes
deriving DecidableEq, Repr

/-- The buffer-flush loop `while let Some(b) = buf.remove(&data_pos)`;
`fuel` only bounds the iteration count and `buf.length` is always enough. -/
def drainLoop : Nat → Nat → List (Nat × Bytes) → List Bytes → WriterState
  | 0, pos, buf, out => ⟨pos, buf, out⟩
  | fuel + 1, pos, buf, out =>
    match bufLookup buf pos with
    | none => ⟨pos, buf, out⟩
    | some b => drainLoop fuel (pos + 1) (bufErase buf pos) (out ++ [b])

/-- Flush the reorder buffer starting at `pos`. -/
def drainBuf (pos : Nat) (buf : List (Nat × Bytes)) (out : List Bytes) : WriterState :=
  drainLoop buf.length pos buf out

/-- One iteration of the writer loop on a received message: write directly
when the index is `data_pos`, otherwise insert into the buffer; in both
cases run the flush loop afterwards (keys are pairwise distinct in any run,
so consing models `BTreeMap::insert`). -/
def writerStep (st : WriterState) (msg : Nat × Bytes) : WriterState :=
  if msg.1 = st.dataPos then
    drainBuf (st.dataPos + 1) st.buf (st.chunks ++ [msg.2])
  else
    drainBuf st.dataPos ((msg.1, msg.2) :: st.buf) st.chunks

/-- The writer's receive loop over the arrival order of the messages. -/
def runWriter (msgs : List (Nat × Bytes)) : WriterState :=
  msgs.foldl writerStep ⟨0, [], []⟩

/-- Whole fetch: receive loop followed by the final drain of the remaining
buffer (download.rs:1168-1171); the run succeeds iff the buffer then is
empty. -/
def downloadOutcome (msgs : List (Nat × Bytes)) : WriterState :=
  let st := runWriter msgs
  drainBuf st.dataPos st.buf st.chunks

/-- Specification of claim C1 at a given arrival order: the sink saw exactly
the segment bodies, one whole body per write, in strict index order, and the
reorder buffer ended empty. -/
def OrderedWriteSpec (N : Nat) (body : Nat → Bytes) (msgs : List (Nat × Bytes)) : Prop :=
  (downloadOutcome msgs).chunks = (List.range N).map body ∧
  (downloadOutcome msgs).buf = []

/-- Invariant of the writer loop: after the messages with index list `done`
have been received, the chunks written are exactly the bodies below
`data_pos`, the buffer holds exactly the received indices at or above
`data_pos` (with `data_pos` itself always flushed), buffered values are the
right bodies, and buffered keys are distinct. -/
structure WriterInv (body : Nat → Bytes) (done : List Nat) (st : WriterState) : Prop where
  chunksEq : st.chunks = (List.range st.dataPos).map body
  doneLow : ∀ i, i < st.dataPos → i ∈ done
  bufIff : ∀ k, k ∈ bufKeys st.buf ↔ (k ∈ done ∧ st.dataPos ≤ k)
  posNotBuf : st.dataPos ∉ bufKeys st.buf
  vals : ∀ p ∈ st.buf, p.2 = body p.1
  keysNodup : (bufKeys st.buf).Nodup

/-! ## Multi-variant alignment (`Downloader::download`, download.rs:293-397) -/

/-- Modulus of `u64` arithmetic. -/
def u64Mod : Nat := 2 ^ 64

/-- Rust `as u64` cast of an `i64` value (two's-complement reinterpretation). -/
def intAsU64 (z : Int) : Nat := (z % (2 ^ 64 : Int)).toNat

/-- download.rs:329-336: `sum of segment lengths as u64  -  offset
.num_milliseconds() as u64`, with release-mode wrapping subtraction. -/
def formatLen (totalMs : Nat) (offMs : Int) : Nat :=
  (totalMs % u64Mod + u64Mod - intAsU64 offMs) % u64Mod

/-- Association-list lookup, modelling `HashMap::get(&i).copied()`. -/
def lookupKey {α : Type} : List (Nat × α) → Nat → Option α
  | [], _ => none
  | p :: rest, k => if p.1 = k then some p.2 else lookupKey rest k

/-- The offset of variant `i`, `offsets.get(&i).copied().unwrap_or_default()`. -/
def offsetD (offs : List (Nat × Int)) (i : Nat) : Int := (lookupKey offs i).getD 0

/-- One language variant as the alignment step sees it: its video, its audio
and subtitle track lists, and its video manifest's segment lengths in
milliseconds. -/
structure AlignVariant where
  video : Nat
  audios : List Nat
  subtitles : List Nat
  segmentsMs : List Nat
deriving DecidableEq, Repr

/-- Enumerated loop computing every variant's wrapped `format_len`. -/
def variantLensGo (offs : List (Nat × Int)) : Nat → List AlignVariant → List Nat
  | _, [] => []
  | i, f :: rest => formatLen f.segmentsMs.sum (offsetD offs i) :: variantLensGo offs (i + 1) rest

/-- The `format_len` value of each variant, in variant order. -/
def variantLens (fmts : List AlignVariant) (offs : List (Nat × Int)) : List Nat :=
  variantLensGo offs 0 fmts

/-- Root-selection loop (download.rs:325-340): start from index 0 with
length 0 and move the root whenever a strictly greater `format_len`
appears. -/
def selectRootAux : List Nat → Nat → Nat → Nat → Nat
  | [], _, rootIdx, _ => rootIdx
  | len :: rest, i, rootIdx, rootLen =>
    if rootLen < len then selectRootAux rest (i + 1) i len
    else selectRootAux rest (i + 1) rootIdx rootLen

/-- Index of the chosen root variant. -/
def selectRoot (lens : List Nat) : Nat := selectRootAux lens 0 0 0

/-- Dummy variant used only for out-of-range `getD` reads that the source
never performs. -/
def dummyVariant : AlignVariant := ⟨0, [], [], []⟩

/-- Root selection followed by the splice (download.rs:354-374): remove the
root, prepend the audios/subtitles of variants enumerated before the root's
old position, append the rest, and keep only the root's video. -/
def mergeRoot (fmts : List AlignVariant) (offs : List (Nat × Int)) : Nat × AlignVariant :=
  let rootIdx := selectRoot (variantLens fmts offs)
  let root := fmts.getD rootIdx dummyVariant
  let rest := fmts.eraseIdx rootIdx
  let audioPre := ((rest.take rootIdx).map (·.audios)).flatten
  let subPre := ((rest.take rootIdx).map (·.subtitles)).flatten
  let audioApp := ((rest.drop rootIdx).map (·.audios)).flatten
  let subApp := ((rest.drop rootIdx).map (·.subtitles)).flatten
  (rootIdx,
    { root with
        audios := audioPre ++ root.audios ++ audioApp
        subtitles := subPre ++ root.subtitles ++ subApp })

/-- Total segment duration of variant `i` as a signed millisecond count. -/
def totalInt (fmts : List AlignVariant) (i : Nat) : Int :=
  ((fmts.getD i dummyVariant).segmentsMs.sum : Int)

/-- Specification of claim C2 (amended): the chosen root maximises
`total_ms - offset_ms` with ties broken by lowest index, only the root's
video is retained, and the other variants' audios and subtitles are spliced
around the root's lists, lower indices prepended in order, higher indices
appended. -/
def RootSpliceSpec (fmts : List AlignVariant) (offs : List (Nat × Int)) : Prop :=
  (mergeRoot fmts offs).1 < fmts.length ∧
  (∀ j, j < fmts.length →
    totalInt fmts j - offsetD offs j ≤
      totalInt fmts (mergeRoot fmts offs).1 - offsetD offs (mergeRoot fmts offs).1) ∧
  (∀ j, j < (mergeRoot fmts offs).1 →
    totalInt fmts j - offsetD offs j <
      totalInt fmts (mergeRoot fmts offs).1 - offsetD offs (mergeRoot fmts offs).1) ∧
  (mergeRoot fmts offs).2.video = (fmts.getD (mergeRoot fmts offs).1 dummyVariant).video ∧
  (mergeRoot fmts offs).2.audios =
    ((fmts.take (mergeRoot fmts offs).1).map (·.audios)).flatten ++
      (fmts.getD (mergeRoot fmts offs).1 dummyVariant).audios ++
      ((fmts.drop ((mergeRoot fmts offs).1 + 1)).map (·.audios)).flatten ∧
  (mergeRoot fmts offs).2.subtitles =
    ((fmts.take (mergeRoot fmts offs).1).map (·.subtitles)).flatten ++
      (fmts.getD (mergeRoot fmts offs).1 dummyVariant).subtitles ++
      ((fmts.drop ((mergeRoot fmts offs).1 + 1)).map (·.subtitles)).flatten

/-- Counterexample variants for the unamended C2: both videos last 10 s. -/
def cexAlignFmts : List AlignVariant := [⟨100, [1], [], [10000]⟩, ⟨200, [2], [], [10000]⟩]

/-- Counterexample offsets: variant 0 is assigned a 20 s offset, exceeding
its 10 s duration, so the u64 subtraction wraps. -/
def cexAlignOffs : List (Nat × Int) := [(0, 20000), (1, 6000)]

/-! ## Sync sanity check and rejection path (download.rs:303-397) -/

/-- One variant as the sync decision sees it: total video length in
milliseconds, whether skip events are attached, and its track counts. -/
structure SyncFormat where
  totalMs : Nat
  hasSkipEvents : Bool
  audioCount : Nat
  subtitleCount : Nat
deriving DecidableEq, Repr

/-- chrono's `TimeDelta::num_seconds`: whole seconds, truncated toward
zero. -/
def numSeconds (ms : Int) : Int := Int.tdiv ms 1000

/-- `iter().min()` of a nonempty list (0 on the empty list, which the source
never queries since it requires at least two variants). -/
def listMin : List Int → Int
  | [] => 0
  | x :: xs => xs.foldl min x

/-- `iter().max()` of a nonempty list. -/
def listMax : List Int → Int
  | [] => 0
  | x :: xs => xs.foldl max x

/-- Enumerated loop computing `len_from_segments(..) - offset` per variant. -/
def effectiveLensGo (offs : List (Nat × Int)) : Nat → List SyncFormat → List Int
  | _, [] => []
  | i, f :: rest => ((f.totalMs : Int) - offsetD offs i) :: effectiveLensGo offs (i + 1) rest

/-- Effective length of every variant under the returned offsets. -/
def effectiveLens (fmts : List SyncFormat) (offs : List (Nat × Int)) : List Int :=
  effectiveLensGo offs 0 fmts

/-- The sanity check at download.rs:317:
`max.num_seconds() - min.num_seconds() > 15`. -/
def spreadTooLarge (fmts : List SyncFormat) (offs : List (Nat × Int)) : Bool :=
  let lens := effectiveLens fmts offs
  15 < numSeconds (listMax lens) - numSeconds (listMin lens)

/-- Clearing loop `format.metadata.skip_events = None` over all variants. -/
def clearSkip (fmts : List SyncFormat) : List SyncFormat :=
  fmts.map (fun f => { f with hasSkipEvents := false })

/-- The `audio_offsets` map after the accepted-offsets loop: key `i` is
present when variant `i` has at least one audio and the offset map contains
`i`. -/
def audioOffsetMapGo (offs : List (Nat × Int)) : Nat → List SyncFormat → List (Nat × Int)
  | _, [] => []
  | i, f :: rest =>
    (if f.audioCount ≠ 0 then ((lookupKey offs i).map (fun o => (i, o))).toList else []) ++
      audioOffsetMapGo offs (i + 1) rest

/-- The `subtitle_offsets` map after the accepted-offsets loop. -/
def subtitleOffsetMapGo (offs : List (Nat × Int)) : Nat → List SyncFormat → List (Nat × Int)
  | _, [] => []
  | i, f :: rest =>
    (if f.subtitleCount ≠ 0 then ((lookupKey offs i).map (fun o => (i, o))).toList else []) ++
      subtitleOffsetMapGo offs (i + 1) rest

/-- Lengths used by the root selection in the sync block. -/
def syncLensGo (offs : List (Nat × Int)) : Nat → List SyncFormat → List Nat
  | _, [] => []
  | i, f :: rest => formatLen f.totalMs (offsetD offs i) :: syncLensGo offs (i + 1) rest

/-- Observable outcome of the sync block. -/
structure SyncOutcome where
  offsetsUsed : Option (List (Nat × Int))
  preChecked : Bool
  warnedNoSyncPositions : Bool
  formatsAfter : List SyncFormat
  audioOffsets : List (Nat × Int)
  subtitleOffsets : List (Nat × Int)
  videoOffset : Option Int
deriving DecidableEq, Repr

/-- The sync block run on a multi-variant download with a configured
tolerance, given the aligner's returned offsets (`sync_audios` is an
external collaborator; its result is the input here).  Mirrors
download.rs:303-397: a returned offset map is first spread-checked and
discarded (with `offset_pre_checked = true`) when the effective lengths
differ by more than 15 s; accepted offsets select a root and populate the
offset maps; without usable offsets every variant's skip events are cleared
and the "couldn't find reliable sync positions" warning fires only when the
aligner itself returned none. -/
def syncBlock (fmts : List SyncFormat) (aligned : Option (List (Nat × Int))) : SyncOutcome :=
  let pre : Option (List (Nat × Int)) × Bool :=
    match aligned with
    | some offs => if spreadTooLarge fmts offs then (none, true) else (some offs, false)
    | none => (none, false)
  match pre with
  | (some offs, _) =>
    let rootIdx := selectRoot (syncLensGo offs 0 fmts)
    { offsetsUsed := some offs
      preChecked := false
      warnedNoSyncPositions := false
      formatsAfter := [fmts.getD rootIdx ⟨0, false, 0, 0⟩]
      audioOffsets := audioOffsetMapGo offs 0 fmts
      subtitleOffsets := subtitleOffsetMapGo offs 0 fmts
      videoOffset := lookupKey offs rootIdx }
  | (none, preChecked) =>
    { offsetsUsed := none
      preChecked := preChecked
      warnedNoSyncPositions := !preChecked
      formatsAfter := clearSkip fmts
      audioOffsets := []
      subtitleOffsets := []
      videoOffset := none }

/-- One token of the multiplexer argument vector, at the granularity the
sync claims need: a `-ss <t>` start-offset option or a `-i <path>` input. -/
inductive ArgTok where
  | ss (t : Int)
  | input (path : String)
deriving DecidableEq, Repr

/-- ffmpeg input arguments for one input file: an optional `-ss <t>` token
followed by `-i <path>` (download.rs:569-594). -/
def inputArgsFor (startTime : Option Int) (path : String) : List ArgTok :=
  (match startTime with
   | some t => [.ss t]
   | none => []) ++ [.input path]

/-- Audio inputs of the plan: each raw audio carries its owning variant
index and its path; `start_time` is looked up in `audio_offsets`. -/
def audioPlanArgs (audioMap : List (Nat × Int)) (audios : List (Nat × String)) : List ArgTok :=
  (audios.map (fun a => inputArgsFor (lookupKey audioMap a.1) a.2)).flatten

/-- Video input of the plan under the chosen video offset. -/
def videoPlanArgs (vOff : Option Int) (path : String) : List ArgTok :=
  inputArgsFor vOff path

/-- Presence of a start-offset option in an argument fragment. -/
def hasStartOffset (args : List ArgTok) : Prop :=
  ∃ t, ArgTok.ss t ∈ args

/-- Specification of claim C3: when the aligner produced offsets but the
spread check rejects them, no `-ss` reaches the plan, all skip events are
cleared, and the "couldn't find reliable sync positions" warning stays
silent; that warning fires exactly when the aligner returned no offsets. -/
def SyncRejectSpec (fmts : List SyncFormat) (offs : List (Nat × Int)) : Prop :=
  (syncBlock fmts (some offs)).offsetsUsed = none ∧
  (syncBlock fmts (some offs)).warnedNoSyncPositions = false ∧
  (∀ f ∈ (syncBlock fmts (some offs)).formatsAfter, f.hasSkipEvents = false) ∧
  (∀ audios : List (Nat × String),
    ¬ hasStartOffset (audioPlanArgs (syncBlock fmts (some offs)).audioOffsets audios)) ∧
  (∀ path : String, ¬ hasStartOffset (videoPlanArgs (syncBlock fmts (some offs)).videoOffset path)) ∧
  (syncBlock fmts none).warnedNoSyncPositions = true

/-! ## Subtitle normaliser (`fix_subtitles`, download.rs:1340-1410) -/

/-- One line of a parsed `.ass` file, at the granularity `fix_subtitles`
distinguishes: the `[Script Info]` header, a `Dialogue:` line with layer and
start/end times in milliseconds, or any other line. -/
inductive SubLine where
  | scriptInfo : SubLine
  | scriptInfoTagged : SubLine
  | dialogue (layer : Nat) (startMs endMs : Int) : SubLine
  | plain (tag : Nat) : SubLine
deriving DecidableEq, Repr

/-- Per-line processing pass: append `ScaledBorderAndShadow: yes` to the
`[Script Info]` line and clamp dialogue times to the video length
(download.rs:1353-1396; the second clamp reads the already clamped start,
so it reduces to clamping the end). -/
def processLine (maxLen : Int) : SubLine → SubLine
  | .scriptInfo => .scriptInfoTagged
  | .dialogue layer s e =>
    if maxLen < s ∨ maxLen < e then
      .dialogue layer (if maxLen < s then maxLen else s) (if maxLen < e then maxLen else e)
    else
      .dialogue layer s e
  | l => l

/-- The `entries.0` list: `(adjusted start, line index)` per dialogue line. -/
def dialogueEntriesGo : Nat → List SubLine → List (Int × Nat)
  | _, [] => []
  | i, .dialogue _ s _ :: rest => (s, i) :: dialogueEntriesGo (i + 1) rest
  | i, _ :: rest => dialogueEntriesGo (i + 1) rest

/-- The `entries.1` list: indices of dialogue lines in file order. -/
def dialoguePositionsGo : Nat → List SubLine → List Nat
  | _, [] => []
  | i, .dialogue _ _ _ :: rest => i :: dialoguePositionsGo (i + 1) rest
  | i, _ :: rest => dialoguePositionsGo (i + 1) rest

/-- `Vec::swap` of two in-range positions. -/
def swapIdx (dflt : α) (l : List α) (i j : Nat) : List α :=
  (l.set i (l.getD j dflt)).set j (l.getD i dflt)

/-- Embedding of `fix_subtitles`: process every line, stably sort the
`(start, index)` entries by start, then replay the source's swap loop
`as_lines.swap(original_position, new_position)` pairing the sorted entries
with the dialogue positions in file order. -/
def fixSubtitles (maxLen : Int) (lines : List SubLine) : List SubLine :=
  let processed := lines.map (processLine maxLen)
  let sortedEntries :=
    List.insertionSort (fun a b : Int × Nat => a.1 ≤ b.1) (dialogueEntriesGo 0 processed)
  (sortedEntries.zip (dialoguePositionsGo 0 processed)).foldl
    (fun acc e => if e.1.2 ≠ e.2 then swapIdx (.plain 0) acc e.1.2 e.2 else acc)
    processed

/-- Adjusted start times of the dialogue lines, in output order. -/
def dialogueStarts (lines : List SubLine) : List Int :=
  lines.filterMap (fun l =>
    match l with
    | .dialogue _ s _ => some s
    | _ => none)

/-- Failing input for claim C4: three dialogue lines with start times
3 s, 1 s, 2 s (all far below the video length). -/
def cexSubs : List SubLine :=
  [.dialogue 0 3000 3500, .dialogue 0 1000 1500, .dialogue 0 2000 2500]

/-! ## Variant sort by audio-locale preference (download.rs:218-225) -/

/-- A variant as the sort sees it: its video locale plus an identity tag so
stability is observable. -/
structure SortVariant where
  videoLocale : String
  tag : Nat
deriving DecidableEq, Repr

/-- `audio_sort_locales.iter().position(|l| l == &locale)`. -/
def localePos (order : List String) (loc : String) : Option Nat :=
  List.findIdx? (fun l => l = loc) order

/-- The comparator's non-strict order: `Option<usize>` ordering has
`None < Some(_)`, so an absent locale compares below every present one. -/
def optPosLe (a b : Option Nat) : Bool :=
  match a, b with
  | none, _ => true
  | some _, none => false
  | some i, some j => i ≤ j

/-- Sort key of a variant. -/
def localeKey (order : List String) (v : SortVariant) : Option Nat :=
  localePos order v.videoLocale

/-- The stable `sort_by` of `self.formats` on locale positions. -/
def sortFormatsByLocale (order : List String) (fmts : List SortVariant) : List SortVariant :=
  List.insertionSort (fun a b => optPosLe (localeKey order a) (localeKey order b) = true) fmts

/-- Counterexample preference list for claim C5. -/
def cexOrder : List String := ["en-US"]

/-- Counterexample variant list: a known locale followed by an unknown one. -/
def cexSortVariants : List SortVariant := [⟨"en-US", 0⟩, ⟨"xx-XX", 1⟩]

/-! ## Chapter writer (`write_ffmpeg_chapters`, download.rs:1412-1459)

Skip-event times are `f32` second counts in the source; they are idealised
here as exact rationals. -/

/-- One labelled skip event. -/
structure SkipEvt where
  name : String
  start : ℚ
  stop : ℚ
deriving DecidableEq

/-- One emitted chapter, with rational start/stop in seconds. -/
structure Chapter where
  title : String
  start : ℚ
  stop : ℚ
deriving DecidableEq

/-- The stable sort `events.sort_by(total_cmp on start)`. -/
def sortEvents (events : List SkipEvt) : List SkipEvt :=
  List.insertionSort (fun a b : SkipEvt => a.start ≤ b.start) events

/-- The chapter emission loop: before each event, synthesise an `Episode`
chapter when its start lies more than 10 s after the previous end; after
the last event, synthesise a trailing `Episode` when more than 10 s remain
to the video end. -/
def chapterGo (videoLen : ℚ) : ℚ → List SkipEvt → List Chapter
  | lastEnd, [] =>
    if 10 < videoLen - lastEnd then [⟨"Episode", lastEnd, videoLen⟩] else []
  | lastEnd, e :: rest =>
    (if 10 < e.start - lastEnd then [⟨"Episode", lastEnd, e.start⟩] else []) ++
      ⟨e.name, e.start, e.stop⟩ :: chapterGo videoLen e.stop rest

/-- Embedding of `write_ffmpeg_chapters`: sort the events by start and run
the emission loop from `last_end_time = 0`. -/
def writeChapters (videoLen : ℚ) (events : List SkipEvt) : List Chapter :=
  chapterGo videoLen 0 (sortEvents events)

/-- Rust's saturating `as u32` cast of a nonnegative-or-clamped float,
applied to `seconds * 1000.0`. -/
def u32OfRat (q : ℚ) : Nat := min (max q.floor 0).toNat (2 ^ 32 - 1)

/-- Spec-side gap filling between consecutive sorted events, written from
the claim's words. -/
def gapChaptersBetween : List SkipEvt → List Chapter
  | [] => []
  | [e] => [⟨e.name, e.start, e.stop⟩]
  | e :: f :: rest =>
    ⟨e.name, e.start, e.stop⟩ ::
      ((if 10 < f.start - e.stop then [⟨"Episode", e.stop, f.start⟩] else []) ++
        gapChaptersBetween (f :: rest))

/-- End time of the last event of a list. -/
def lastStop : List SkipEvt → ℚ
  | [] => 0
  | [e] => e.stop
  | _ :: rest => lastStop rest

/-- Spec-side chapter list over an already sorted event list: a leading
`Episode` iff the first event starts more than 10 s in, in-between
`Episode`s exactly at gaps over 10 s, and a trailing `Episode` iff more
than 10 s remain. -/
def specChapters (videoLen : ℚ) (sorted : List SkipEvt) : List Chapter :=
  match sorted with
  | [] => if 10 < videoLen - 0 then [⟨"Episode", 0, videoLen⟩] else []
  | e :: _ =>
    (if 10 < e.start - 0 then [⟨"Episode", 0, e.start⟩] else []) ++
      gapChaptersBetween sorted ++
      (if 10 < videoLen - lastStop sorted then [⟨"Episode", lastStop sorted, videoLen⟩] else [])

/-- Specification of claim C6: the sidecar's integer-millisecond STARTs are
non-decreasing, and the emitted chapter list is exactly the sorted events
with synthetic Episodes at the over-10 s gaps. -/
def ChapterOrderSpec (videoLen : ℚ) (events : List SkipEvt) : Prop :=
  List.Chain' (· ≤ ·) ((writeChapters videoLen events).map (fun c => u32OfRat (c.start * 1000))) ∧
  writeChapters videoLen events = specChapters videoLen (sortEvents events) ∧
  List.Pairwise (fun a b : SkipEvt => a.start ≤ b.start) (sortEvents events)

/-! ## Disk space probe (`Downloader::check_free_space`, download.rs:843-901) -/

/-- Embedding of the probe given the size estimate, the statvfs numbers of
the temp and destination partitions, and whether the destination is `-` or
a special device file.  Returns the optional required-space warnings for
temp and destination.  Note the source doubles the *available* space on the
same-partition branch (download.rs:885-886). -/
def checkFreeSpace (estimated tmpTotal tmpAvail dstTotal dstAvail : Nat)
    (dstSpecialOrStdout : Bool) : Option Nat × Option Nat :=
  let same := tmpTotal = dstTotal ∧ ((tmpAvail : Int) - (dstAvail : Int)).natAbs < 10240
  let tmpSpace := if same then tmpAvail * 2 else tmpAvail
  let dstSpace := if same then dstAvail * 2 else dstAvail
  (if tmpSpace < estimated then some estimated else none,
   if !dstSpecialOrStdout ∧ dstSpace < estimated then some estimated else none)

/-! ## Per-segment retry (download.rs:1067-1110) -/

/-- Outcome of a worker: success, or abort with the "max retry count
reached" error naming the retry count and the failed segment. -/
inductive WorkerOutcome where
  | ok : WorkerOutcome
  | maxRetry (retries : Nat) (segment : Nat) : WorkerOutcome
deriving DecidableEq, Repr

/-- The retry loop on one segment: `oracle seg k` is the response of the
`k`-th attempt (`none` = transport or body-read error).  Returns the list
of attempt numbers made and the bytes on success.  `fuel` bounds the loop;
six is always enough since `retry_count` stops at 5. -/
def fetchFrom (oracle : Nat → Nat → Option Bytes) (seg : Nat) :
    Nat → Nat → List Nat × Option Bytes
  | 0, _ => ([], none)
  | fuel + 1, retryCount =>
    match oracle seg retryCount with
    | some b => ([retryCount], some b)
    | none =>
      if retryCount = 5 then ([retryCount], none)
      else
        let r := fetchFrom oracle seg fuel (retryCount + 1)
        (retryCount :: r.1, r.2)

/-- Fetch one segment: at most 6 attempts, starting at `retry_count = 0`. -/
def fetchSegment (oracle : Nat → Nat → Option Bytes) (seg : Nat) : List Nat × Option Bytes :=
  fetchFrom oracle seg 6 0

/-- One worker's segment loop: on retry exhaustion it bails out with the
"max retry count reached" error and attempts no further segments.  Returns
the trace of `(segment, attempt)` pairs and the outcome. -/
def runWorker (oracle : Nat → Nat → Option Bytes) :
    List Nat → List (Nat × Nat) × WorkerOutcome
  | [] => ([], .ok)
  | seg :: rest =>
    let f := fetchSegment oracle seg
    match f.2 with
    | none => (f.1.map (fun a => (seg, a)), .maxRetry 5 seg)
    | some _ =>
      let r := runWorker oracle rest
      (f.1.map (fun a => (seg, a)) ++ r.1, r.2)

/-- Specification of claim C8 for a worker whose segment `seg` always
fails: the run aborts with the error naming `seg`, exactly 6 attempts were
made on `seg`, no segment after `seg` was attempted, and no segment ever
received more than 6 attempts. -/
def RetryAbortSpec (oracle : Nat → Nat → Option Bytes) (pre post : List Nat) (seg : Nat) : Prop :=
  ((runWorker oracle (pre ++ seg :: post)).2 = .maxRetry 5 seg) ∧
  (((runWorker oracle (pre ++ seg :: post)).1.filter (fun p => p.1 = seg)).length = 6) ∧
  (∀ p ∈ (runWorker oracle (pre ++ seg :: post)).1, p.1 ∈ pre ++ [seg]) ∧
  (∀ s, (((runWorker oracle (pre ++ seg :: post)).1.filter (fun p => p.1 = s)).length ≤ 6))

/-- Witness oracle for claim C8: segment 1 always fails, others succeed
immediately. -/
def cexOracle : Nat → Nat → Option Bytes :=
  fun s _ => if s = 1 then none else some [s]

/-! ## `SingleFormat::skip_events` (format.rs:185-191) -/

/-- The media source held by a `SingleFormat`; episodes and movies carry
the result their upstream `skip_events()` call would produce. -/
inductive MediaSource where
  | episode (upstream : Except String Nat)
  | movie (upstream : Except String Nat)
  | musicVideo
  | concert
deriving Repr

/-- Embedding of `SingleFormat::skip_events`: the number of upstream
requests performed, and the result.  Music videos and concerts fall into
the wildcard arm `_ => Ok(None)` without any request. -/
def skipEventsCall : MediaSource → Nat × Except String (Option Nat)
  | .episode r => (1, r.map some)
  | .movie r => (1, r.map some)
  | .musicVideo => (0, .ok none)
  | .concert => (0, .ok none)

/-! ## `SingleFormat` constructors (format.rs:93-166) -/

/-- The fields of a `Movie` that `new_from_movie` reads. -/
structure MovieData where
  id : String
  title : String
  description : String
  listingId : String
  listingTitle : String
  year : Nat
  month : Nat
  day : Nat
  durationMs : Int
deriving DecidableEq, Repr

/-- The fields of a `MusicVideo` that `new_from_music_video` reads. -/
structure MusicVideoData where
  id : String
  title : String
  description : String
  year : Nat
  month : Nat
  day : Nat
  durationMs : Int
deriving DecidableEq, Repr

/-- The fields of a `Concert` that `new_from_concert` reads. -/
structure ConcertData where
  id : String
  title : String
  description : String
  year : Nat
  month : Nat
  day : Nat
  durationMs : Int
deriving DecidableEq, Repr

/-- The `SingleFormat` record (the opaque `source` member is modelled
separately as `MediaSource`). -/
structure SingleFormat where
  identifier : String
  title : String
  description : String
  releaseYear : Nat
  releaseMonth : Nat
  releaseDay : Nat
  audio : String
  subtitles : List String
  seriesId : String
  seriesName : String
  seasonId : String
  seasonTitle : String
  seasonNumber : Nat
  episodeId : String
  episodeNumber : String
  relativeEpisodeNumber : Option Nat
  sequenceNumber : ℚ
  relativeSequenceNumber : Option ℚ
  durationMs : Int
deriving DecidableEq, Repr

/-- Embedding of `SingleFormat::new_from_movie`. -/
def newFromMovie (m : MovieData) (subtitles : List String) : SingleFormat where
  identifier := m.id
  title := m.title
  description := m.description
  releaseYear := m.year
  releaseMonth := m.month
  releaseDay := m.day
  audio := "ja-JP"
  subtitles := subtitles
  seriesId := m.listingId
  seriesName := m.listingTitle
  seasonId := m.listingId
  seasonTitle := m.listingTitle
  seasonNumber := 1
  episodeId := m.id
  episodeNumber := "1"
  relativeEpisodeNumber := some 1
  sequenceNumber := 1
  relativeSequenceNumber := some 1
  durationMs := m.durationMs

/-- Embedding of `SingleFormat::new_from_music_video`. -/
def newFromMusicVideo (m : MusicVideoData) : SingleFormat where
  identifier := m.id
  title := m.title
  description := m.description
  releaseYear := m.year
  releaseMonth := m.month
  releaseDay := m.day
  audio := "ja-JP"
  subtitles := []
  seriesId := m.id
  seriesName := m.title
  seasonId := m.id
  seasonTitle := m.title
  seasonNumber := 1
  episodeId := m.id
  episodeNumber := "1"
  relativeEpisodeNumber := some 1
  sequenceNumber := 1
  relativeSequenceNumber := some 1
  durationMs := m.durationMs

/-- Embedding of `SingleFormat::new_from_concert`. -/
def newFromConcert (c : ConcertData) : SingleFormat where
  identifier := c.id
  title := c.title
  description := c.description
  releaseYear := c.year
  releaseMonth := c.month
  releaseDay := c.day
  audio := "ja-JP"
  subtitles := []
  seriesId := c.id
  seriesName := c.title
  seasonId := c.id
  seasonTitle := c.title
  seasonNumber := 1
  episodeId := c.id
  episodeNumber := "1"
  relativeEpisodeNumber := some 1
  sequenceNumber := 1
  relativeSequenceNumber := some 1
  durationMs := c.durationMs

/-! ## Theorems -/

theorem optPosLe_total (x y : Option Nat) : optPosLe x y = true ∨ optPosLe y x = true := by
  cases x <;> cases y <;> simp [optPosLe] <;> omega

theorem optPosLe_trans {x y z : Option Nat} (h1 : optPosLe x y = true)
    (h2 : optPosLe y z = true) : optPosLe x z = true := by
  cases x <;> cases y <;> cases z <;> simp [optPosLe] at * <;> omega

/-- C10: every `SingleFormat` built by `new_from_movie`,
`new_from_music_video` or `new_from_concert` has audio locale `ja-JP`,
`season_number` 1, `episode_number` `"1"`, `sequence_number` 1.0 and
`relative_episode_number` `Some(1)`, whatever the input media carries. -/
theorem special_format_constant_fields (m : MovieData) (subs : List String)
    (mv : MusicVideoData) (c : ConcertData) :
    ((newFromMovie m subs).audio = "ja-JP" ∧ (newFromMovie m subs).seasonNumber = 1 ∧
      (newFromMovie m subs).episodeNumber = "1" ∧ (newFromMovie m subs).sequenceNumber = 1 ∧
      (newFromMovie m subs).relativeEpisodeNumber = some 1) ∧
    ((newFromMusicVideo mv).audio = "ja-JP" ∧ (newFromMusicVideo mv).seasonNumber = 1 ∧
      (newFromMusicVideo mv).episodeNumber = "1" ∧ (newFromMusicVideo mv).sequenceNumber = 1 ∧
      (newFromMusicVideo mv).relativeEpisodeNumber = some 1) ∧
    ((newFromConcert c).audio = "ja-JP" ∧ (newFromConcert c).seasonNumber = 1 ∧
      (newFromConcert c).episodeNumber = "1" ∧ (newFromConcert c).sequenceNumber = 1 ∧
      (newFromConcert c).relativeEpisodeNumber = some 1) :=
  ⟨⟨rfl, rfl, rfl, rfl, rfl⟩, ⟨rfl, rfl, rfl, rfl, rfl⟩, ⟨rfl, rfl, rfl, rfl, rfl⟩⟩

/-- C9: a `SingleFormat` backed by a music video or a concert gets
`Ok(None)` from `skip_events` and performs no upstream request; only the
episode and movie arms call upstream. -/
theorem skip_events_music_concert_none (src : MediaSource)
    (h : src = MediaSource.musicVideo ∨ src = MediaSource.concert) :
    skipEventsCall src = (0, Except.ok none) := by
  rcases h with h | h <;> subst h <;> rfl

/-- Witness for C9 at the music-video source. -/
theorem skip_events_music_concert_none_witness :
    skipEventsCall MediaSource.musicVideo = (0, Except.ok none) :=
  skip_events_music_concert_none MediaSource.musicVideo (Or.inl rfl)

/-- C7 (code bug): with temp and destination on one partition holding 100
free bytes and an 80-byte estimate, the probe stays silent even though the
two demands together (80 * 2 = 160) exceed the free space, because the
source doubles the available space instead of the demand; a hypothetical
separate-partition probe with the doubled estimate does warn on both
paths. -/
theorem check_free_space_same_partition_bug :
    checkFreeSpace 80 1000000 100 1000000 100 false = (none, none) ∧
    100 < 80 * 2 ∧
    checkFreeSpace (80 * 2) 1000000 100 2000000 100 false = (some 160, some 160) := by
  decide

/-- C5 counterexample: under the preference list `["en-US"]`, the variant
with the unknown locale `"xx-XX"` is placed before the known one, not
after it. -/
theorem audio_sort_unknown_first_cex :
    sortFormatsByLocale cexOrder cexSortVariants =
      [⟨"xx-XX", 1⟩, ⟨"en-US", 0⟩] ∧
    localePos cexOrder "xx-XX" = none ∧ localePos cexOrder "en-US" = some 0 := by
  decide

/-- C5 (amended): the variant list is stably sorted by the position of each
variant's video locale in the preference list, with variants whose locale
does not occur placed before all variants whose locale does occur
(`Option` ordering puts `None` first). -/
theorem audio_sort_stable_unknown_first (order : List String) (fmts : List SortVariant)
    (a b : SortVariant) (hab : [a, b].Sublist fmts)
    (hle : optPosLe (localeKey order a) (localeKey order b) = true) :
    (sortFormatsByLocale order fmts).Perm fmts ∧
    List.Pairwise (fun x y => optPosLe (localeKey order x) (localeKey order y) = true)
      (sortFormatsByLocale order fmts) ∧
    [a, b].Sublist (sortFormatsByLocale order fmts) := by
  refine ⟨List.perm_insertionSort _ fmts, ?_, ?_⟩
  · have h := @List.sorted_insertionSort SortVariant
      (fun x y => optPosLe (localeKey order x) (localeKey order y) = true) _
      ⟨fun x y => optPosLe_total _ _⟩ ⟨fun x y z => optPosLe_trans⟩ fmts
    simpa [List.Sorted, sortFormatsByLocale] using h
  · simpa [sortFormatsByLocale] using
      @List.pair_sublist_insertionSort SortVariant
        (fun x y => optPosLe (localeKey order x) (localeKey order y) = true) _ a b fmts hle hab

/-- Witness for C5 on a two-variant list with the unknown locale first. -/
theorem audio_sort_stable_unknown_first_witness :
    (sortFormatsByLocale cexOrder [⟨"xx-XX", 1⟩, ⟨"en-US", 0⟩]).Perm
      [⟨"xx-XX", 1⟩, ⟨"en-US", 0⟩] ∧
    List.Pairwise (fun x y => optPosLe (localeKey cexOrder x) (localeKey cexOrder y) = true)
      (sortFormatsByLocale cexOrder [⟨"xx-XX", 1⟩, ⟨"en-US", 0⟩]) ∧
    [⟨"xx-XX", 1⟩, ⟨"en-US", 0⟩].Sublist
      (sortFormatsByLocale cexOrder [⟨"xx-XX", 1⟩, ⟨"en-US", 0⟩]) :=
  audio_sort_stable_unknown_first cexOrder _ _ _ (by decide) (by decide)

/-- C3: when the aligner produced offsets but the effective lengths spread
over 15 s, the offsets are discarded: no `-ss` reaches the plan, every
variant's skip events are cleared, and the "couldn't find reliable sync
positions" warning is not emitted; it fires exactly when the aligner
returned no offsets. -/
theorem sync_spread_reject (fmts : List SyncFormat) (offs : List (Nat × Int))
    (hspread : spreadTooLarge fmts offs = true) : SyncRejectSpec fmts offs := by
  unfold SyncRejectSpec
  refine ⟨?_, ?_, ?_, ?_, ?_, ?_⟩
  · simp [syncBlock, hspread]
  · simp [syncBlock, hspread]
  · simp [syncBlock, hspread, clearSkip]
  · intro audios h
    rcases h with ⟨t, ht⟩
    simp [syncBlock, hspread, audioPlanArgs, inputArgsFor, lookupKey,
      List.mem_flatten, List.mem_map] at ht
    obtain ⟨l, ⟨x, p, _, rfl⟩, hmem⟩ := ht
    simp at hmem
  · intro path h
    rcases h with ⟨t, ht⟩
    simp [syncBlock, hspread, videoPlanArgs, inputArgsFor] at ht
  · simp [syncBlock]

/-- Witness for C3: two variants 30 s and 10 s long with zero offsets. -/
theorem sync_spread_reject_witness :
    SyncRejectSpec [⟨30000, true, 1, 0⟩, ⟨10000, true, 1, 1⟩] [(0, 0)] :=
  sync_spread_reject _ _ (by decide)

theorem fetchFrom_trace_len (oracle : Nat → Nat → Option Bytes) (seg : Nat) :
    ∀ (fuel rc : Nat), (fetchFrom oracle seg fuel rc).1.length ≤ fuel := by
  intro fuel
  induction fuel with
  | zero => intro rc; simp [fetchFrom]
  | succ n ih =>
    intro rc
    simp only [fetchFrom]
    cases h : oracle seg rc with
    | some b => simp
    | none =>
      by_cases hrc : rc = 5
      · simp [hrc]
      · simpa [hrc] using ih (rc + 1)

theorem fetchSegment_all_fail (oracle : Nat → Nat → Option Bytes) (seg : Nat)
    (h : ∀ k, k < 6 → oracle seg k = none) :
    fetchSegment oracle seg = ([0, 1, 2, 3, 4, 5], none) := by
  have h0 := h 0 (by omega)
  have h1 := h 1 (by omega)
  have h2 := h 2 (by omega)
  have h3 := h 3 (by omega)
  have h4 := h 4 (by omega)
  have h5 := h 5 (by omega)
  simp [fetchSegment, fetchFrom, h0, h1, h2, h3, h4, h5]

theorem runWorker_trace_sub (oracle : Nat → Nat → Option Bytes) :
    ∀ (segs : List Nat), ∀ p ∈ (runWorker oracle segs).1, p.1 ∈ segs := by
  intro segs
  induction segs with
  | nil => simp [runWorker]
  | cons seg rest ih =>
    intro p hp
    cases hf : (fetchSegment oracle seg).2 with
    | none =>
      simp [runWorker, hf] at hp
      obtain ⟨a, -, rfl⟩ := hp
      simp
    | some b =>
      simp [runWorker, hf] at hp
      rcases hp with ⟨a, -, rfl⟩ | hp
      · simp
      · simpa using Or.inr (ih p hp)

theorem filter_tag_len (seg s : Nat) (l : List Nat) :
    ((l.map (fun a => (seg, a))).filter (fun p => p.1 = s)).length =
      if seg = s then l.length else 0 := by
  induction l with
  | nil => simp
  | cons x xs ih =>
    by_cases h : seg = s
    · subst h; simpa using ih
    · simpa [h] using ih

theorem runWorker_attempts_le (oracle : Nat → Nat → Option Bytes) :
    ∀ (segs : List Nat), segs.Nodup →
      ∀ s, ((runWorker oracle segs).1.filter (fun p => p.1 = s)).length ≤ 6 := by
  intro segs
  induction segs with
  | nil => intro _ s; simp [runWorker]
  | cons seg rest ih =>
    intro hnd s
    have hndr : rest.Nodup := (List.nodup_cons.mp hnd).2
    have hnm : seg ∉ rest := (List.nodup_cons.mp hnd).1
    have htr : (fetchSegment oracle seg).1.length ≤ 6 :=
      fetchFrom_trace_len oracle seg 6 0
    cases hf : (fetchSegment oracle seg).2 with
    | none =>
      simp only [runWorker, hf]
      rw [filter_tag_len]
      by_cases h : seg = s
      · simpa [h] using htr
      · simp [h]
    | some b =>
      simp only [runWorker, hf, List.filter_append, List.length_append]
      have h1 := filter_tag_len seg s (fetchSegment oracle seg).1
      by_cases h : seg = s
      · subst h
        have hz : ((runWorker oracle rest).1.filter (fun p => p.1 = seg)).length = 0 := by
          rw [List.length_eq_zero]
          refine List.filter_eq_nil_iff.mpr ?_
          intro p hp
          have := runWorker_trace_sub oracle rest p hp
          simp
          intro hps
          exact hnm (hps ▸ this)
        rw [h1, hz]
        simpa using htr
      · rw [h1]
        simpa [h] using ih hndr s

theorem runWorker_append_ok (oracle : Nat → Nat → Option Bytes) :
    ∀ (pre l : List Nat),
      (∀ t ∈ pre, (fetchSegment oracle t).2.isSome = true) →
      runWorker oracle (pre ++ l) =
        ((runWorker oracle pre).1 ++ (runWorker oracle l).1, (runWorker oracle l).2) := by
  intro pre
  induction pre with
  | nil => intro l _; simp [runWorker]
  | cons t pre ih =>
    intro l h
    have ht : (fetchSegment oracle t).2.isSome = true := h t (by simp)
    obtain ⟨b, hb⟩ := Option.isSome_iff_exists.mp ht
    have ihl := ih l (fun u hu => h u (by simp [hu]))
    simp [runWorker, hb, ihl, List.append_assoc]

/-- C8: a worker makes at most 6 attempts per segment; when all 6 attempts
on a segment fail it aborts with the max-retry error naming that segment,
having attempted exactly 6 times there and no segment scheduled after it. -/
theorem segment_retry_exhaustion (oracle : Nat → Nat → Option Bytes)
    (pre post : List Nat) (seg : Nat)
    (hnd : (pre ++ seg :: post).Nodup)
    (hpre : ∀ t ∈ pre, (fetchSegment oracle t).2.isSome = true)
    (hfail : ∀ k, k < 6 → oracle seg k = none) :
    RetryAbortSpec oracle pre post seg := by
  have hseg := fetchSegment_all_fail oracle seg hfail
  have happ := runWorker_append_ok oracle pre (seg :: post) hpre
  have hrunseg : runWorker oracle (seg :: post) =
      ((([0, 1, 2, 3, 4, 5] : List Nat)).map (fun a => (seg, a)),
        WorkerOutcome.maxRetry 5 seg) := by
    simp [runWorker, hseg]
  have hsplit := List.nodup_append.mp hnd
  have hsegpre : seg ∉ pre := fun hm => (hsplit.2.2 hm) (by simp)
  have hprefilter : ∀ s, s = seg →
      ((runWorker oracle pre).1.filter (fun p => p.1 = s)).length = 0 := by
    intro s hs
    subst hs
    rw [List.length_eq_zero]
    refine List.filter_eq_nil_iff.mpr ?_
    intro p hp
    have := runWorker_trace_sub oracle pre p hp
    simp
    intro hps
    exact hsegpre (hps ▸ this)
  unfold RetryAbortSpec
  rw [happ, hrunseg]
  refine ⟨rfl, ?_, ?_, ?_⟩
  · simp only [List.filter_append, List.length_append]
    rw [hprefilter seg rfl, filter_tag_len]
    simp
  · intro p hp
    simp only [List.mem_append] at hp
    rcases hp with hp | hp
    · have := runWorker_trace_sub oracle pre p hp
      simp [this]
    · rw [List.mem_map] at hp
      obtain ⟨a, -, rfl⟩ := hp
      simp
  · intro s
    simp only [List.filter_append, List.length_append]
    by_cases h : s = seg
    · rw [hprefilter s h, filter_tag_len]
      simp [h]
    · have h1 := runWorker_attempts_le oracle pre hsplit.1 s
      have hne : seg ≠ s := fun hh => h hh.symm
      rw [filter_tag_len]
      simpa [hne] using h1

/-- Witness for C8: worker segments `[0, 1, 2]`, segment 1 always fails. -/
theorem segment_retry_exhaustion_witness : RetryAbortSpec cexOracle [0] [2] 1 :=
  segment_retry_exhaustion cexOracle [0] [2] 1 (by decide) (by decide) (by decide)

theorem variantLensGo_length (offs : List (Nat × Int)) :
    ∀ (l : List AlignVariant) (i : Nat), (variantLensGo offs i l).length = l.length := by
  intro l
  induction l with
  | nil => intro i; rfl
  | cons f rest ih => intro i; simp [variantLensGo, ih (i + 1)]

theorem variantLensGo_getD (offs : List (Nat × Int)) :
    ∀ (l : List AlignVariant) (i j : Nat), j < l.length →
      (variantLensGo offs i l).getD j 0 =
        formatLen (l.getD j dummyVariant).segmentsMs.sum (offsetD offs (i + j)) := by
  intro l
  induction l with
  | nil => intro i j hj; simp at hj
  | cons f rest ih =>
    intro i j hj
    cases j with
    | zero => simp [variantLensGo]
    | succ j =>
      have h := ih (i + 1) j (by simpa using Nat.lt_of_succ_lt_succ hj)
      have he : i + (j + 1) = (i + 1) + j := by omega
      simp only [variantLensGo, List.getD_cons_succ, he]
      exact h

theorem selectRootAux_correct (lens : List Nat) :
    ∀ (rest : List Nat) (k r m : Nat),
      lens.drop k = rest →
      (∀ j, j < k → lens.getD j 0 ≤ m) →
      ((m = 0 ∧ r = 0) ∨
        (r < k ∧ r < lens.length ∧ lens.getD r 0 = m ∧ ∀ j, j < r → lens.getD j 0 < m)) →
      ((∀ j, j < lens.length → lens.getD j 0 ≤ lens.getD (selectRootAux rest k r m) 0) ∧
        (∀ j, j < selectRootAux rest k r m →
          lens.getD j 0 < lens.getD (selectRootAux rest k r m) 0) ∧
        (selectRootAux rest k r m < lens.length ∨ lens.length = 0)) := by
  intro rest
  induction rest with
  | nil =>
    intro k r m hdrop hle hinv
    have hk : lens.length ≤ k := by
      have hlen := congrArg List.length hdrop
      simp [List.length_drop] at hlen
      omega
    simp only [selectRootAux]
    rcases hinv with ⟨hm, hr⟩ | ⟨hrk, hrlen, hrm, hlt⟩
    · subst hm; subst hr
      have hall : ∀ j, j < lens.length → lens.getD j 0 = 0 := by
        intro j hj
        have := hle j (by omega)
        omega
      constructor
      · intro j hj
        rw [hall j hj]
        omega
      · refine ⟨fun j hj => by omega, ?_⟩
        rcases Nat.eq_zero_or_pos lens.length with h0 | h0
        · exact Or.inr h0
        · exact Or.inl h0
    · refine ⟨?_, ?_, Or.inl hrlen⟩
      · intro j hj
        rw [hrm]
        exact hle j (by omega)
      · intro j hj
        rw [hrm]
        exact hlt j hj
  | cons x rest ih =>
    intro k r m hdrop hle hinv
    have hklen : k < lens.length := by
      by_contra hcon
      rw [List.drop_eq_nil_of_le (by omega)] at hdrop
      exact List.noConfusion hdrop
    have hget : lens.getD k 0 = x := by
      have h0 : (lens.drop k)[0]? = some x := by rw [hdrop]; simp
      rw [List.getElem?_drop] at h0
      simp only [Nat.add_zero] at h0
      simp [List.getD_eq_getElem?_getD, h0]
    have hdrop' : lens.drop (k + 1) = rest := by
      have : (lens.drop k).tail = lens.drop (k + 1) := by
        rw [← List.drop_drop]
        simp [List.drop_one]
      rw [← this, hdrop]
      rfl
    simp only [selectRootAux]
    by_cases hmx : m < x
    · simp only [if_pos hmx]
      apply ih (k + 1) k x hdrop'
      · intro j hj
        rcases Nat.lt_or_ge j k with h | h
        · exact le_trans (hle j h) (le_of_lt hmx)
        · have : j = k := by omega
          subst this
          omega
      · refine Or.inr ⟨by omega, hklen, hget, ?_⟩
        intro j hj
        exact lt_of_le_of_lt (hle j hj) hmx
    · simp only [if_neg hmx]
      apply ih (k + 1) r m hdrop'
      · intro j hj
        rcases Nat.lt_or_ge j k with h | h
        · exact hle j h
        · have : j = k := by omega
          subst this
          omega
      · rcases hinv with h | ⟨hrk, hrlen, hrm, hlt⟩
        · exact Or.inl h
        · exact Or.inr ⟨by omega, hrlen, hrm, hlt⟩

theorem formatLen_eq (total : Nat) (off : Int) (h1 : total < 2 ^ 63)
    (h2 : -(2 ^ 63) ≤ off) (h3 : off ≤ (total : Int)) :
    (formatLen total off : Int) = (total : Int) - off := by
  unfold formatLen intAsU64 u64Mod
  omega

/-- C2 (amended): provided no variant's offset exceeds its total segment
duration (so the u64 subtraction cannot wrap) and magnitudes stay below
2^63 ms, the chosen root maximises `total_ms - offset_ms` with ties broken
by lowest variant index, only the root's video is retained, and the other
variants' audios and subtitles are spliced into the root's lists with lower
indices prepended in original order and higher indices appended. -/
theorem variant_align_root_splice (fmts : List AlignVariant) (offs : List (Nat × Int))
    (hne : fmts ≠ [])
    (hbound : ∀ i, i < fmts.length →
      -(2 ^ 63) ≤ offsetD offs i ∧ offsetD offs i ≤ totalInt fmts i ∧
        totalInt fmts i < 2 ^ 63) :
    RootSpliceSpec fmts offs := by
  have hlen : (variantLens fmts offs).length = fmts.length :=
    variantLensGo_length offs fmts 0
  have hN : 0 < fmts.length := by
    cases fmts with
    | nil => exact absurd rfl hne
    | cons f rest => simp
  have hsel := selectRootAux_correct (variantLens fmts offs) (variantLens fmts offs) 0 0 0
    (by simp) (by intro j hj; omega) (Or.inl ⟨rfl, rfl⟩)
  have hroot : (mergeRoot fmts offs).1 = selectRoot (variantLens fmts offs) := rfl
  set r := selectRoot (variantLens fmts offs) with hrdef
  rw [show selectRootAux (variantLens fmts offs) 0 0 0 = r from rfl] at hsel
  have hr : r < fmts.length := by
    rcases hsel.2.2 with h | h
    · omega
    · omega
  have hgetD : ∀ j, j < fmts.length →
      ((variantLens fmts offs).getD j 0 : Int) = totalInt fmts j - offsetD offs j := by
    intro j hj
    have hb := hbound j hj
    have hg : (variantLens fmts offs).getD j 0 =
        formatLen (fmts.getD j dummyVariant).segmentsMs.sum (offsetD offs j) := by
      have := variantLensGo_getD offs fmts 0 j hj
      simpa [variantLens] using this
    have hb2 : (fmts.getD j dummyVariant).segmentsMs.sum < 2 ^ 63 := by
      have h := hb.2.2
      unfold totalInt at h
      exact_mod_cast h
    have hb3 : offsetD offs j ≤ ((fmts.getD j dummyVariant).segmentsMs.sum : Int) := by
      have h := hb.2.1
      unfold totalInt at h
      exact h
    rw [hg]
    exact formatLen_eq _ _ hb2 hb.1 hb3
  have hrest : fmts.eraseIdx r = fmts.take r ++ fmts.drop (r + 1) :=
    List.eraseIdx_eq_take_drop_succ fmts r
  have htlen : (fmts.take r).length = r := by
    simp [List.length_take]
    omega
  have htake : (fmts.eraseIdx r).take r = fmts.take r := by
    rw [hrest, List.take_append_of_le_length (by omega), List.take_take]
    simp
  have hdrop : (fmts.eraseIdx r).drop r = fmts.drop (r + 1) := by
    rw [hrest, List.drop_append_of_le_length (by omega), List.drop_eq_nil_of_le (by omega)]
    rfl
  refine ⟨hr, ?_, ?_, ?_, ?_, ?_⟩
  · intro j hj
    have h1 := hsel.1 j (by omega)
    have e1 := hgetD j hj
    have e2 := hgetD r hr
    have : ((variantLens fmts offs).getD j 0 : Int) ≤ (variantLens fmts offs).getD r 0 := by
      exact_mod_cast h1
    rw [e1, e2] at this
    exact this
  · intro j hj
    have hjlen : j < fmts.length := by omega
    have h1 := hsel.2.1 j hj
    have e1 := hgetD j hjlen
    have e2 := hgetD r hr
    have : ((variantLens fmts offs).getD j 0 : Int) < (variantLens fmts offs).getD r 0 := by
      exact_mod_cast h1
    rw [e1, e2] at this
    exact this
  · rfl
  · show (mergeRoot fmts offs).2.audios = _
    simp only [mergeRoot, htake, hdrop]
  · show (mergeRoot fmts offs).2.subtitles = _
    simp only [mergeRoot, htake, hdrop]

/-- C2 counterexample to the unamended claim: variant 0 carries a 20 s
offset against a 10 s video, so its `format_len` wraps around `2 ^ 64` and
it is chosen as root although variant 1 has the greater
`total_ms - offset_ms`; the effective lengths still pass the 15 s spread
check (they differ by 14 s), so this input reaches the root selection. -/
theorem variant_align_root_argmax_cex :
    (mergeRoot cexAlignFmts cexAlignOffs).1 = 0 ∧
    totalInt cexAlignFmts 0 - offsetD cexAlignOffs 0 <
      totalInt cexAlignFmts 1 - offsetD cexAlignOffs 1 ∧
    spreadTooLarge [⟨10000, true, 1, 0⟩, ⟨10000, true, 1, 0⟩] cexAlignOffs = false := by
  decide

/-- Witness for C2 on two well-behaved variants: totals 24.0 s and 24.5 s
with a 500 ms offset on variant 1, giving a tie resolved to index 0. -/
theorem variant_align_root_splice_witness :
    RootSpliceSpec [⟨1, [10], [100], [24000]⟩, ⟨2, [20], [200], [24500]⟩] [(1, 500)] :=
  variant_align_root_splice _ _ (by decide) (by decide)

theorem chapterGo_spec_aux (L : ℚ) :
    ∀ (l : List SkipEvt) (e : SkipEvt),
      (⟨e.name, e.start, e.stop⟩ : Chapter) :: chapterGo L e.stop l =
        gapChaptersBetween (e :: l) ++
          (if 10 < L - lastStop (e :: l) then [⟨"Episode", lastStop (e :: l), L⟩] else []) := by
  intro l
  induction l with
  | nil =>
    intro e
    simp [chapterGo, gapChaptersBetween, lastStop]
  | cons f rest ih =>
    intro e
    have hlast : lastStop (e :: f :: rest) = lastStop (f :: rest) := by
      simp [lastStop]
    rw [hlast]
    calc (⟨e.name, e.start, e.stop⟩ : Chapter) :: chapterGo L e.stop (f :: rest)
        = ⟨e.name, e.start, e.stop⟩ ::
            ((if 10 < f.start - e.stop then [⟨"Episode", e.stop, f.start⟩] else []) ++
              ((⟨f.name, f.start, f.stop⟩ : Chapter) :: chapterGo L f.stop rest)) := by
          simp [chapterGo]
      _ = _ := by
          rw [ih f]
          simp [gapChaptersBetween, List.append_assoc]

/-- Refinement of the chapter loop against the claim's leading, in-between
and trailing gap rules. -/
theorem writeChapters_eq_spec (L : ℚ) (events : List SkipEvt) :
    writeChapters L events = specChapters L (sortEvents events) := by
  unfold writeChapters specChapters
  cases h : sortEvents events with
  | nil => simp [chapterGo]
  | cons e rest =>
    simp only [chapterGo]
    rw [chapterGo_spec_aux L rest e]
    simp [List.append_assoc]

theorem chapterGo_chain (L : ℚ) :
    ∀ (l : List SkipEvt) (lastEnd prev : ℚ) (t : String) (s : ℚ),
      List.Pairwise (fun a b : SkipEvt => a.start ≤ b.start) l →
      (∀ e ∈ l, e.start < e.stop) →
      (∀ e ∈ l, prev ≤ e.start) →
      prev ≤ lastEnd →
      List.Chain' (fun a b : Chapter => a.start ≤ b.start)
        (⟨t, prev, s⟩ :: chapterGo L lastEnd l) := by
  intro l
  induction l with
  | nil =>
    intro lastEnd prev t s _ _ _ hpl
    simp only [chapterGo]
    by_cases h : 10 < L - lastEnd
    · simp only [if_pos h]
      exact List.chain'_cons.mpr ⟨hpl, List.chain'_singleton _⟩
    · simp [h]
  | cons e rest ih =>
    intro lastEnd prev t s hpw hse hge hpl
    simp only [chapterGo]
    have hpw' := (List.pairwise_cons.mp hpw).2
    have hhead := (List.pairwise_cons.mp hpw).1
    have hes : e.start < e.stop := hse e (by simp)
    have hrec := ih e.stop e.start e.name e.stop hpw'
      (fun f hf => hse f (by simp [hf])) hhead (le_of_lt hes)
    by_cases hgap : 10 < e.start - lastEnd
    · simp only [if_pos hgap, List.cons_append, List.nil_append]
      refine List.chain'_cons.mpr ⟨hpl, List.chain'_cons.mpr ⟨by linarith, hrec⟩⟩
    · simp only [if_neg hgap, List.nil_append]
      exact List.chain'_cons.mpr ⟨hge e (by simp), hrec⟩

theorem u32OfRat_mono {q q' : ℚ} (h : q ≤ q') : u32OfRat q ≤ u32OfRat q' := by
  unfold u32OfRat
  have hq : (Rat.floor q : ℚ) ≤ q := Rat.le_floor.mp le_rfl
  have hf : Rat.floor q ≤ Rat.floor q' := Rat.le_floor.mpr (le_trans hq h)
  omega

/-- C6: the chapter sidecar lists its chapters with non-decreasing
integer-millisecond START values, the emitted events are the skip events
sorted by start, and a synthetic `Episode` appears exactly at the leading,
in-between and trailing gaps strictly over 10 s. -/
theorem write_chapters_sorted_gaps (L : ℚ) (events : List SkipEvt)
    (hv : ∀ e ∈ events, 0 ≤ e.start ∧ e.start < e.stop) :
    ChapterOrderSpec L events := by
  unfold ChapterOrderSpec
  have hperm : (sortEvents events).Perm events := List.perm_insertionSort _ events
  have hvs : ∀ e ∈ sortEvents events, 0 ≤ e.start ∧ e.start < e.stop :=
    fun e he => hv e (hperm.mem_iff.mp he)
  have hsorted : List.Pairwise (fun a b : SkipEvt => a.start ≤ b.start) (sortEvents events) := by
    have h := @List.sorted_insertionSort SkipEvt (fun a b => a.start ≤ b.start) _
      ⟨fun a b => le_total a.start b.start⟩ ⟨fun a b c => le_trans⟩ events
    simpa [List.Sorted, sortEvents] using h
  refine ⟨?_, writeChapters_eq_spec L events, hsorted⟩
  have hchain : List.Chain' (fun a b : Chapter => a.start ≤ b.start) (writeChapters L events) := by
    unfold writeChapters
    have h := chapterGo_chain L (sortEvents events) 0 0 "Episode" 0 hsorted
      (fun e he => (hvs e he).2) (fun e he => (hvs e he).1) le_rfl
    exact h.tail
  rw [List.chain'_map]
  refine hchain.imp ?_
  intro a b hab
  exact u32OfRat_mono (mul_le_mul_of_nonneg_right hab (by norm_num))

/-- Witness for C6 on a 1500 s video with Intro (10, 40) and Credits
(1400, 1450). -/
theorem write_chapters_sorted_gaps_witness :
    ChapterOrderSpec 1500 [⟨"Intro", 10, 40⟩, ⟨"Credits", 1400, 1450⟩] :=
  write_chapters_sorted_gaps 1500 _ (by decide)

/-- C4 (code bug): on dialogue start times 3 s, 1 s, 2 s the swap loop of
`fix_subtitles` leaves the dialogue lines in start order 3, 2, 1 — the
output is not sorted by adjusted start time. -/
theorem fix_subtitles_sort_bug :
    dialogueStarts (fixSubtitles 100000 cexSubs) = [3000, 2000, 1000] ∧
    ¬ List.Pairwise (fun a b : Int => a ≤ b) (dialogueStarts (fixSubtitles 100000 cexSubs)) := by
  decide

theorem count_range_eq (i N : Nat) : (List.range N).count i = if i < N then 1 else 0 := by
  induction N with
  | zero => simp
  | succ n ih =>
    rw [List.range_succ, List.count_append, ih, List.count_singleton]
    by_cases h2 : n = i
    · subst h2
      simp [Nat.lt_irrefl, Nat.lt_succ_self]
    · have hne : (n == i) = false := by simpa using h2
      by_cases h1 : i < n
      · simp [h1, hne, Nat.lt_succ_of_lt h1]
      · have h3 : ¬ i < n + 1 := by omega
        simp [h1, hne, h3]

theorem sum_map_single (t c : Nat) (K : Nat) :
    ((List.range K).map (fun w => if w = t then c else 0)).sum = if t < K then c else 0 := by
  induction K with
  | zero => simp
  | succ n ih =>
    rw [List.range_succ, List.map_append, List.sum_append, ih]
    by_cases h2 : n = t
    · subst h2
      simp [Nat.lt_irrefl, Nat.lt_succ_self]
    · by_cases h1 : t < n
      · simp [h1, h2, Nat.lt_succ_of_lt h1]
      · have h3 : ¬ t < n + 1 := by omega
        simp [h1, h2, h3]

theorem count_workerBucket (N K w i : Nat) :
    (workerBucket N K w).count i = if i % K = w ∧ i < N then 1 else 0 := by
  unfold workerBucket
  by_cases h : i % K = w
  · rw [List.count_filter (by simp [h]), count_range_eq]
    simp [h]
  · have hnm : i ∉ (List.range N).filter (fun j => j % K = w) := by
      simp [List.mem_filter, h]
    rw [List.count_eq_zero.mpr hnm]
    simp [h]

theorem allKeys_perm (N K : Nat) (hK : 0 < K) : (allKeys N K).Perm (List.range N) := by
  rw [List.perm_iff_count]
  intro i
  rw [count_range_eq]
  unfold allKeys
  rw [List.count_flatten, List.map_map]
  have hbods : (List.count i ∘ fun w => workerBucket N K w) =
      fun w => if w = i % K then (if i < N then 1 else 0) else 0 := by
    funext w
    simp only [Function.comp_apply, count_workerBucket]
    by_cases h1 : w = i % K <;> by_cases h2 : i < N <;> simp [h1, h2] <;> omega
  rw [hbods, sum_map_single]
  simp [Nat.mod_lt i hK]

theorem workerBucket_eq_map (K w : Nat) (hK : 0 < K) (hw : w < K) :
    ∀ N, workerBucket N K w = (List.range (bucketLen N K w)).map (fun j => w + j * K) := by
  intro N
  induction N with
  | zero =>
    have hb : bucketLen 0 K w = 0 := by
      unfold bucketLen
      exact Nat.div_eq_of_lt (by omega)
    simp [workerBucket, hb]
  | succ n ih =>
    have hb : workerBucket (n + 1) K w =
        workerBucket n K w ++ if n % K = w then [n] else [] := by
      unfold workerBucket
      rw [List.range_succ, List.filter_append]
      congr 1
      by_cases h : n % K = w <;> simp [h]
    rw [hb, ih]
    by_cases h : n % K = w
    · have hdm : K * (n / K) + w = n := by
        have := Nat.div_add_mod n K
        omega
      have hbl1 : bucketLen n K w = n / K := by
        unfold bucketLen
        have he : n - w + K - 1 = K * (n / K) + (K - 1) := by omega
        rw [he, Nat.mul_add_div hK]
        have hz : (K - 1) / K = 0 := Nat.div_eq_of_lt (by omega)
        omega
      have hbl2 : bucketLen (n + 1) K w = n / K + 1 := by
        unfold bucketLen
        have hx : K * (n / K + 1) = K * (n / K) + K := by ring
        have he : n + 1 - w + K - 1 = K * (n / K + 1) := by omega
        rw [he]
        exact Nat.mul_div_cancel_left _ hK
      rw [hbl1, hbl2, if_pos h, List.range_succ, List.map_append]
      simp
      have hc : n / K * K = K * (n / K) := Nat.mul_comm _ _
      omega
    · have hne : bucketLen (n + 1) K w = bucketLen n K w := by
        unfold bucketLen
        rcases Nat.lt_or_ge n w with hnw | hnw
        · have he : n + 1 - w + K - 1 = n - w + K - 1 := by omega
          rw [he]
        · have hd := Nat.div_add_mod (n - w) K
          have hr0 : (n - w) % K ≠ 0 := by
            intro h0
            apply h
            have hn : n = w + K * ((n - w) / K) := by omega
            rw [hn, Nat.add_mul_mod_self_left]
            exact Nat.mod_eq_of_lt hw
          have hrK : (n - w) % K < K := Nat.mod_lt _ hK
          have he1 : n - w + K - 1 = K * ((n - w) / K) + ((n - w) % K + K - 1) := by omega
          have he2 : n + 1 - w + K - 1 = K * ((n - w) / K) + ((n - w) % K + K) := by omega
          rw [he1, he2, Nat.mul_add_div hK, Nat.mul_add_div hK]
          have d1 : ((n - w) % K + K - 1) / K = 1 :=
            Nat.div_eq_of_lt_le (by omega) (by omega)
          have d2 : ((n - w) % K + K) / K = 1 :=
            Nat.div_eq_of_lt_le (by omega) (by omega)
          omega
      rw [if_neg h, hne]
      simp

theorem workerSend_range' (body : Nat → Bytes) (K w : Nat) :
    ∀ (L j : Nat),
      workerSend body K w j ((List.range' j L).map (fun t => w + t * K)) =
        (List.range' j L).map (fun t => (w + t * K, body (w + t * K))) := by
  intro L
  induction L with
  | zero => intro j; rfl
  | succ n ih =>
    intro j
    simp only [List.range', List.map_cons, workerSend]
    rw [ih (j + 1)]

theorem workerSend_bucket (body : Nat → Bytes) (N K w : Nat) (hK : 0 < K) (hw : w < K) :
    workerSend body K w 0 (workerBucket N K w) =
      (workerBucket N K w).map (fun i => (i, body i)) := by
  rw [workerBucket_eq_map K w hK hw N, List.range_eq_range',
    workerSend_range' body K w (bucketLen N K w) 0, List.map_map]
  rfl

theorem allMessages_eq (body : Nat → Bytes) (N K : Nat) (hK : 0 < K) (hKN : K ≤ N) :
    allMessages body N K = (allKeys N K).map (fun i => (i, body i)) := by
  have hmin : min K N = K := Nat.min_eq_left hKN
  unfold allMessages allKeys
  rw [hmin, List.map_flatten, List.map_map]
  congr 1
  apply List.map_congr_left
  intro w hw
  rw [List.mem_range] at hw
  simpa using workerSend_bucket body N K w hK hw

theorem bufKeys_cons (p : Nat × Bytes) (rest : List (Nat × Bytes)) :
    bufKeys (p :: rest) = p.1 :: bufKeys rest := rfl

theorem bufLookup_none_iff (buf : List (Nat × Bytes)) (k : Nat) :
    bufLookup buf k = none ↔ k ∉ bufKeys buf := by
  induction buf with
  | nil => simp [bufLookup, bufKeys]
  | cons p rest ih =>
    rw [bufKeys_cons]
    by_cases h : p.1 = k
    · simp [bufLookup, h]
    · simp only [bufLookup, if_neg h, List.mem_cons]
      rw [ih]
      constructor
      · intro hn hc
        rcases hc with hc | hc
        · exact h hc.symm
        · exact hn hc
      · intro hn hc
        exact hn (Or.inr hc)

theorem bufLookup_some_mem : ∀ {buf : List (Nat × Bytes)} {k : Nat} {b : Bytes},
    bufLookup buf k = some b → (k, b) ∈ buf := by
  intro buf
  induction buf with
  | nil => intro k b h; simp [bufLookup] at h
  | cons p rest ih =>
    intro k b h
    simp only [bufLookup] at h
    by_cases hp : p.1 = k
    · rw [if_pos hp] at h
      have hb : p.2 = b := by simpa using h
      have hpe : p = (k, b) := by
        cases p
        simp at hp hb
        simp [hp, hb]
      rw [← hpe]
      exact List.mem_cons_self _ _
    · rw [if_neg hp] at h
      exact List.mem_cons_of_mem _ (ih h)

theorem bufErase_sublist (k : Nat) :
    ∀ (buf : List (Nat × Bytes)), (bufErase buf k).Sublist buf := by
  intro buf
  induction buf with
  | nil => simp [bufErase]
  | cons p rest ih =>
    simp only [bufErase]
    by_cases h : p.1 = k
    · rw [if_pos h]
      exact List.sublist_cons_self p rest
    · rw [if_neg h]
      exact ih.cons₂ p

theorem bufErase_length {k : Nat} : ∀ {buf : List (Nat × Bytes)} {b : Bytes},
    bufLookup buf k = some b → (bufErase buf k).length + 1 = buf.length := by
  intro buf
  induction buf with
  | nil => intro b h; simp [bufLookup] at h
  | cons p rest ih =>
    intro b h
    simp only [bufLookup] at h
    simp only [bufErase]
    by_cases hp : p.1 = k
    · rw [if_pos hp]
      simp
    · rw [if_neg hp] at h
      rw [if_neg hp]
      simp only [List.length_cons]
      rw [← ih h]

theorem bufKeys_erase_mem (k : Nat) :
    ∀ (buf : List (Nat × Bytes)), (bufKeys buf).Nodup →
      ∀ k', (k' ∈ bufKeys (bufErase buf k) ↔ (k' ∈ bufKeys buf ∧ k' ≠ k)) := by
  intro buf
  induction buf with
  | nil => intro _ k'; simp [bufErase, bufKeys]
  | cons p rest ih =>
    intro hnd k'
    rw [bufKeys_cons] at hnd
    have hnd' : (bufKeys rest).Nodup := (List.nodup_cons.mp hnd).2
    have hpn : p.1 ∉ bufKeys rest := (List.nodup_cons.mp hnd).1
    simp only [bufErase]
    by_cases h : p.1 = k
    · rw [if_pos h, bufKeys_cons]
      subst h
      constructor
      · intro hm
        refine ⟨List.mem_cons_of_mem _ hm, ?_⟩
        intro he
        subst he
        exact hpn hm
      · rintro ⟨hm, hne⟩
        rcases List.mem_cons.mp hm with he | hm
        · exact absurd he hne
        · exact hm
    · rw [if_neg h, bufKeys_cons, bufKeys_cons]
      constructor
      · intro hm
        rcases List.mem_cons.mp hm with he | hm
        · subst he
          exact ⟨List.mem_cons_self _ _, fun hc => h hc⟩
        · have h2 := (ih hnd' k').mp hm
          exact ⟨List.mem_cons_of_mem _ h2.1, h2.2⟩
      · rintro ⟨hm, hne⟩
        rcases List.mem_cons.mp hm with he | hm
        · subst he
          exact List.mem_cons_self _ _
        · exact List.mem_cons_of_mem _ ((ih hnd' k').mpr ⟨hm, hne⟩)

theorem bufKeys_erase_nodup (k : Nat) (buf : List (Nat × Bytes))
    (hnd : (bufKeys buf).Nodup) : (bufKeys (bufErase buf k)).Nodup :=
  ((bufErase_sublist k buf).map Prod.fst).nodup hnd

theorem drainLoop_spec (body : Nat → Bytes) :
    ∀ (fuel : Nat) (pos : Nat) (buf : List (Nat × Bytes)) (out : List Bytes),
      buf.length ≤ fuel →
      (∀ p ∈ buf, p.2 = body p.1) →
      (bufKeys buf).Nodup →
      out = (List.range pos).map body →
      pos ≤ (drainLoop fuel pos buf out).dataPos ∧
      (drainLoop fuel pos buf out).chunks =
        (List.range (drainLoop fuel pos buf out).dataPos).map body ∧
      (∀ k, k ∈ bufKeys (drainLoop fuel pos buf out).buf ↔
        (k ∈ bufKeys buf ∧ ¬(pos ≤ k ∧ k < (drainLoop fuel pos buf out).dataPos))) ∧
      (∀ j, pos ≤ j → j < (drainLoop fuel pos buf out).dataPos → j ∈ bufKeys buf) ∧
      (drainLoop fuel pos buf out).dataPos ∉ bufKeys (drainLoop fuel pos buf out).buf ∧
      (∀ p ∈ (drainLoop fuel pos buf out).buf, p.2 = body p.1) ∧
      (bufKeys (drainLoop fuel pos buf out).buf).Nodup := by
  intro fuel
  induction fuel with
  | zero =>
    intro pos buf out hlen hval hnd hout
    have hbuf : buf = [] := List.length_eq_zero.mp (by omega)
    subst hbuf
    simp only [drainLoop]
    refine ⟨le_rfl, hout, ?_, ?_, ?_, ?_, ?_⟩
    · intro k
      simp [bufKeys]
    · intro j h1 h2
      omega
    · simp [bufKeys]
    · intro p hp
      simp at hp
    · simp [bufKeys]
  | succ n ih =>
    intro pos buf out hlen hval hnd hout
    cases hlook : bufLookup buf pos with
    | none =>
      have hpos : pos ∉ bufKeys buf := (bufLookup_none_iff buf pos).mp hlook
      simp only [drainLoop, hlook]
      refine ⟨le_rfl, hout, ?_, ?_, hpos, hval, hnd⟩
      · intro k
        constructor
        · intro hk
          exact ⟨hk, by omega⟩
        · intro hk
          exact hk.1
      · intro j h1 h2
        omega
    | some b =>
      have hmem := bufLookup_some_mem hlook
      have hposkeys : pos ∈ bufKeys buf := by
        unfold bufKeys
        exact List.mem_map_of_mem Prod.fst hmem
      have hb : b = body pos := by
        have := hval (pos, b) hmem
        simpa using this
      have hlenE : (bufErase buf pos).length + 1 = buf.length := bufErase_length hlook
      have hkeysE := bufKeys_erase_mem pos buf hnd
      have hvalE : ∀ p ∈ bufErase buf pos, p.2 = body p.1 :=
        fun p hp => hval p ((bufErase_sublist pos buf).mem hp)
      have hndE := bufKeys_erase_nodup pos buf hnd
      have houtE : out ++ [b] = (List.range (pos + 1)).map body := by
        rw [hout, hb, List.range_succ, List.map_append]
        rfl
      have hres := ih (pos + 1) (bufErase buf pos) (out ++ [b]) (by omega) hvalE hndE houtE
      have hstep : drainLoop (n + 1) pos buf out =
          drainLoop n (pos + 1) (bufErase buf pos) (out ++ [b]) := by
        simp only [drainLoop, hlook]
      rw [hstep]
      obtain ⟨hle, hchunks, hkiff, hcov, hposN, hvalN, hndN⟩ := hres
      refine ⟨by omega, hchunks, ?_, ?_, hposN, hvalN, hndN⟩
      · intro k
        rw [hkiff k]
        constructor
        · rintro ⟨hkE, hint⟩
          have h2 := (hkeysE k).mp hkE
          refine ⟨h2.1, ?_⟩
          have hne : k ≠ pos := h2.2
          omega
        · rintro ⟨hkb, hint⟩
          have hne : k ≠ pos := by
            intro he
            subst he
            exact hint ⟨le_rfl, by omega⟩
          refine ⟨(hkeysE k).mpr ⟨hkb, hne⟩, ?_⟩
          omega
      · intro j h1 h2
        rcases Nat.eq_or_lt_of_le h1 with he | hlt
        · rw [← he]
          exact hposkeys
        · have := hcov j (by omega) h2
          exact ((hkeysE j).mp this).1

theorem writerStep_inv (body : Nat → Bytes) (done : List Nat) (st : WriterState)
    (k : Nat) (v : Bytes) (hv : v = body k)
    (hinv : WriterInv body done st) (hk : k ∉ done) :
    WriterInv body (done ++ [k]) (writerStep st (k, v)) := by
  obtain ⟨hchunks, hlow, hiff, hpos, hvals, hnd⟩ := hinv
  by_cases hkp : k = st.dataPos
  · have hstep : writerStep st (k, v) = drainBuf (st.dataPos + 1) st.buf (st.chunks ++ [v]) := by
      simp [writerStep, hkp]
    rw [hstep]
    unfold drainBuf
    have hout : st.chunks ++ [v] = (List.range (st.dataPos + 1)).map body := by
      rw [hchunks, hv, hkp, List.range_succ, List.map_append]
      rfl
    have hspec := drainLoop_spec body st.buf.length (st.dataPos + 1) st.buf
      (st.chunks ++ [v]) le_rfl hvals hnd hout
    obtain ⟨hle, hchunks', hkiff, hcov, hpos', hvals', hnd'⟩ := hspec
    refine ⟨hchunks', ?_, ?_, hpos', hvals', hnd'⟩
    · intro i hi
      rcases Nat.lt_or_ge i st.dataPos with h | h
      · exact List.mem_append_left _ (hlow i h)
      · rcases Nat.eq_or_lt_of_le h with he | hlt
        · refine List.mem_append_right _ ?_
          rw [← he, hkp]
          simp
        · have hcovi := hcov i (by omega) hi
          have h2 := (hiff i).mp hcovi
          exact List.mem_append_left _ h2.1
    · intro k'
      rw [hkiff k']
      constructor
      · rintro ⟨hin, hint⟩
        have h2 := (hiff k').mp hin
        have hne : k' ≠ st.dataPos := fun he => hpos (he ▸ hin)
        have h22 := h2.2
        exact ⟨List.mem_append_left _ h2.1, by omega⟩
      · rintro ⟨hin, hge⟩
        rcases List.mem_append.mp hin with h | h
        · have hkd : st.dataPos ≤ k' := by omega
          exact ⟨(hiff k').mpr ⟨h, hkd⟩, by omega⟩
        · simp at h
          subst h
          rw [hkp] at hge
          omega
  · have hgt : st.dataPos < k := by
      rcases Nat.lt_or_ge k st.dataPos with h | h
      · exact absurd (hlow k h) hk
      · omega
    have hlooknone : bufLookup ((k, v) :: st.buf) st.dataPos = none := by
      simp only [bufLookup, if_neg (by omega : ¬ (k = st.dataPos))]
      exact (bufLookup_none_iff _ _).mpr hpos
    have hstep : writerStep st (k, v) = ⟨st.dataPos, (k, v) :: st.buf, st.chunks⟩ := by
      simp only [writerStep, if_neg hkp]
      unfold drainBuf
      simp only [List.length_cons, drainLoop, hlooknone]
    rw [hstep]
    refine ⟨hchunks, ?_, ?_, ?_, ?_, ?_⟩
    · intro i hi
      dsimp only at hi
      exact List.mem_append_left _ (hlow i hi)
    · intro k'
      dsimp only
      rw [bufKeys_cons, List.mem_cons]
      constructor
      · rintro (rfl | h)
        · exact ⟨List.mem_append_right _ (by simp), by omega⟩
        · have h2 := (hiff k').mp h
          exact ⟨List.mem_append_left _ h2.1, h2.2⟩
      · rintro ⟨hin, hge⟩
        rcases List.mem_append.mp hin with h | h
        · exact Or.inr ((hiff k').mpr ⟨h, hge⟩)
        · simp at h
          exact Or.inl h
    · dsimp only
      rw [bufKeys_cons, List.mem_cons]
      rintro (h | h)
      · omega
      · exact hpos h
    · intro p hp
      rcases List.mem_cons.mp hp with rfl | hp
      · simpa using hv
      · exact hvals p hp
    · rw [bufKeys_cons]
      refine List.nodup_cons.mpr ⟨?_, hnd⟩
      intro hkin
      exact hk ((hiff k).mp hkin).1

theorem writerInv_init (body : Nat → Bytes) : WriterInv body [] ⟨0, [], []⟩ := by
  refine ⟨rfl, ?_, ?_, ?_, ?_, ?_⟩
  · intro i hi
    simp at hi
  · intro k
    simp [bufKeys]
  · simp [bufKeys]
  · intro p hp
    simp at hp
  · simp [bufKeys]

theorem runWriter_inv (body : Nat → Bytes) :
    ∀ (msgs : List (Nat × Bytes)) (done : List Nat) (st : WriterState),
      WriterInv body done st →
      (done ++ msgs.map Prod.fst).Nodup →
      (∀ p ∈ msgs, p.2 = body p.1) →
      WriterInv body (done ++ msgs.map Prod.fst) (msgs.foldl writerStep st) := by
  intro msgs
  induction msgs with
  | nil =>
    intro done st hinv _ _
    simpa using hinv
  | cons m rest ih =>
    intro done st hinv hnd hvals
    obtain ⟨k, v⟩ := m
    have hk : k ∉ done := by
      intro hkd
      have hs := List.nodup_append.mp hnd
      exact hs.2.2 hkd (by simp)
    have hv : v = body k := hvals (k, v) (by simp)
    have hstep := writerStep_inv body done st k v hv hinv hk
    have hshape : done ++ (List.map Prod.fst ((k, v) :: rest)) =
        (done ++ [k]) ++ rest.map Prod.fst := by
      simp
    have hnd' : ((done ++ [k]) ++ rest.map Prod.fst).Nodup := by
      rw [← hshape]
      exact hnd
    have hres := ih (done ++ [k]) (writerStep st (k, v)) hstep hnd'
      (fun p hp => hvals p (by simp [hp]))
    rw [hshape]
    simpa using hres

/-- C1: for every manifest of `N` segments, every worker cap
`1 ≤ K ≤ N` and every arrival order of the workers' messages, the writer
emits exactly the segment bodies, one whole body per write, in strict
segment-index order, and the reorder buffer is empty on return. -/
theorem download_segments_ordered (N K : Nat) (body : Nat → Bytes)
    (msgs : List (Nat × Bytes)) (hK : 1 ≤ K) (hKN : K ≤ N)
    (hperm : msgs.Perm (allMessages body N K)) :
    OrderedWriteSpec N body msgs := by
  have hmsg : allMessages body N K = (allKeys N K).map (fun i => (i, body i)) :=
    allMessages_eq body N K hK hKN
  have hkperm : (allKeys N K).Perm (List.range N) := allKeys_perm N K hK
  have hperm2 : msgs.Perm ((List.range N).map (fun i => (i, body i))) := by
    refine hperm.trans ?_
    rw [hmsg]
    exact hkperm.map _
  have hfst : (msgs.map Prod.fst).Perm (List.range N) := by
    have h := hperm2.map Prod.fst
    rw [List.map_map] at h
    have he : List.map (Prod.fst ∘ fun i : Nat => (i, body i)) (List.range N) =
        List.range N := by
      rw [show (Prod.fst ∘ fun i : Nat => (i, body i)) = id from rfl, List.map_id]
    rw [he] at h
    exact h
  have hnd : (msgs.map Prod.fst).Nodup := hfst.nodup_iff.mpr (List.nodup_range N)
  have hmemdone : ∀ i, i ∈ msgs.map Prod.fst ↔ i < N := by
    intro i
    rw [hfst.mem_iff, List.mem_range]
  have hvals : ∀ p ∈ msgs, p.2 = body p.1 := by
    intro p hp
    have h := hperm2.mem_iff.mp hp
    rw [List.mem_map] at h
    obtain ⟨i, _, rfl⟩ := h
    rfl
  have hfold : WriterInv body (List.map Prod.fst msgs) (runWriter msgs) := by
    have h := runWriter_inv body msgs [] ⟨0, [], []⟩ (writerInv_init body)
      (by simpa using hnd) hvals
    simpa using h
  obtain ⟨hchunks, hlow, hiff, hpos, hvalsF, hndF⟩ := hfold
  have hD : (runWriter msgs).dataPos = N := by
    rcases Nat.lt_trichotomy (runWriter msgs).dataPos N with h | h | h
    · exfalso
      have hDin : (runWriter msgs).dataPos ∈ msgs.map Prod.fst := (hmemdone _).mpr h
      exact hpos ((hiff _).mpr ⟨hDin, le_rfl⟩)
    · exact h
    · exfalso
      have hNin : N ∈ msgs.map Prod.fst := hlow N h
      have := (hmemdone N).mp hNin
      omega
  have hbufkeys : bufKeys (runWriter msgs).buf = [] := by
    rw [List.eq_nil_iff_forall_not_mem]
    intro k hkin
    have h2 := (hiff k).mp hkin
    have hlt := (hmemdone k).mp h2.1
    rw [hD] at h2
    omega
  have hbuf : (runWriter msgs).buf = [] := by
    have h := congrArg List.length hbufkeys
    simp [bufKeys] at h
    exact h
  unfold OrderedWriteSpec downloadOutcome
  constructor
  · show (drainBuf (runWriter msgs).dataPos (runWriter msgs).buf
      (runWriter msgs).chunks).chunks = List.map body (List.range N)
    rw [hbuf]
    simp only [drainBuf, List.length_nil, drainLoop]
    rw [hchunks, hD]
  · show (drainBuf (runWriter msgs).dataPos (runWriter msgs).buf
      (runWriter msgs).chunks).buf = []
    rw [hbuf]
    simp only [drainBuf, List.length_nil, drainLoop]

/-- Witness for C1: three segments, two workers, arrival order 1, 0, 2. -/
theorem download_segments_ordered_witness :
    OrderedWriteSpec 3 (fun i => [i]) [(1, [1]), (0, [0]), (2, [2])] :=
  download_segments_ordered 3 2 (fun i => [i]) [(1, [1]), (0, [0]), (2, [2])]
    (by decide) (by decide) (by decide)

end Crunchy
